import Mathlib

/-!
Verification of the sliding-window feature engine of `src/features.py`.

The Python functions are shallowly embedded as Lean functions over
`List Char` (a Python string), `Int` (Python integers) and `Rat`
(exact rational arithmetic in place of Python floats; every literal in
the source is a decimal fraction, so the model is exact).

Fallible code returns `Except Err _`.  The two `ValueError`s raised by
`get_window` are rendered as `Err.invalidPosition` ("Pos is outside the
bounds of seq.") and `Err.invalidWindowSize` ("Size is even.").  A
Python `ZeroDivisionError` from an unchecked division is rendered as
`Err.zeroDivision`, and an `IndexError` from an out-of-range list index
as `Err.indexError`.  The kinds `Err.emptyInput` and
`Err.featureLengthMismatch` are the error kinds named by the design
documents; the embedded code never produces them, and theorems below
record where the source diverges from the documented kinds.
-/

/-- Error kinds: the first two model the `ValueError`s raised by
`get_window`; `zeroDivision` and `indexError` model the unchecked
Python runtime errors; `emptyInput` and `featureLengthMismatch` are the
kinds the design documents prescribe (never produced by the code). -/
inductive Err where
  | invalidPosition
  | invalidWindowSize
  | emptyInput
  | featureLengthMismatch
  | zeroDivision
  | indexError
deriving DecidableEq, Repr

instance {ε α : Type} [DecidableEq ε] [DecidableEq α] : DecidableEq (Except ε α) := fun a b =>
  match a, b with
  | .ok x, .ok y =>
      if h : x = y then isTrue (by rw [h]) else isFalse (by intro hc; cases hc; exact h rfl)
  | .error x, .error y =>
      if h : x = y then isTrue (by rw [h]) else isFalse (by intro hc; cases hc; exact h rfl)
  | .ok _, .error _ => isFalse (by intro hc; cases hc)
  | .error _, .ok _ => isFalse (by intro hc; cases hc)

/-- Left-to-right effectful map over `Except`, mirroring a Python
`for` loop that appends to an accumulator list and propagates the
first raised error. -/
def mapE {α β : Type} (f : α → Except Err β) : List α → Except Err (List β)
  | [] => .ok []
  | a :: as =>
    match f a with
    | .error e => .error e
    | .ok b =>
      match mapE f as with
      | .error e => .error e
      | .ok bs => .ok (b :: bs)

/-- Python slicing `s[a:b]` (step 1): a negative endpoint counts from
the end of the list, endpoints are clamped to `[0, len(s)]`, and an
empty slice results when the effective start is not below the stop. -/
def pySlice (s : List Char) (a b : Int) : List Char :=
  let n : Int := s.length
  let start := if a < 0 then max (n + a) 0 else min a n
  let stop := if b < 0 then max (n + b) 0 else min b n
  (s.drop start.toNat).take (stop - start).toNat

/-- `get_window(seq, pos, window_size)` from `features.py`: bounds
check on `pos`, parity check on `window_size` (Python `%` on negatives
matches `Int.emod`), `delta = (window_size - 1) // 2` (Python floor
division, `Int.fdiv`), clamping of `lower` below by `0` and of `upper`
above by `len(seq)`, and the slice `seq[lower:upper]`. -/
def get_window (seq : List Char) (pos window_size : Int) : Except Err (List Char) :=
  if pos < 0 ∨ pos > (seq.length : Int) - 1 then .error .invalidPosition
  else if window_size % 2 = 0 then .error .invalidWindowSize
  else
    let delta := Int.fdiv (window_size - 1) 2
    let lower := pos - delta
    let lower' := if lower < 0 then 0 else lower
    let upper := pos + delta + 1
    let upper' := if upper > (seq.length : Int) then (seq.length : Int) else upper
    .ok (pySlice seq lower' upper')

/-- `get_X_count(seq, X)` from `features.py`: a running counter over
the symbols of `seq`, incremented when the symbol is a member of `X`. -/
def get_X_count (seq X : List Char) : Nat :=
  seq.foldl (fun X_count sym => if sym ∈ X then X_count + 1 else X_count) 0

/-- `get_X_fractions(seq, X, window_size)` from `features.py`: for each
position the window is extracted and `get_X_count(window, X) /
len(window)` appended; a zero-length window makes the division an
unchecked `ZeroDivisionError`. -/
def get_X_fractions (seq X : List Char) (window_size : Int) : Except Err (List Rat) :=
  mapE (fun (i : Nat) =>
    match get_window seq (i : Int) window_size with
    | .error e => .error e
    | .ok window =>
      if window.length = 0 then .error .zeroDivision
      else .ok ((get_X_count window X : Rat) / (window.length : Rat)))
    (List.range seq.length)

/-- The raw Kyte-Doolittle-style table literal of `get_hydrophobicity`
in `features.py`, before the in-place normalization loop. -/
def hydrophobicity_raw : List (Char × Rat) :=
  [('I', 4.5), ('V', 4.2), ('L', 3.8), ('F', 2.8), ('C', 2.5),
   ('M', 1.9), ('A', 1.8), ('W', -0.9), ('G', -0.4), ('T', -0.7),
   ('S', -0.8), ('Y', -1.3), ('P', -1.6), ('H', -3.2), ('N', -3.5),
   ('D', -3.5), ('Q', -3.5), ('E', -3.5), ('K', -3.9), ('R', -4.5)]

/-- The normalization loop of `get_hydrophobicity`: every entry of the
table is replaced by `(value + 4.5) / 9`. -/
def hydrophobicity_dict : List (Char × Rat) :=
  hydrophobicity_raw.map (fun p => (p.1, (p.2 + 4.5) / 9))

/-- Python `dict.get(c, dflt)` on an association list with distinct
keys. -/
def dictGet (d : List (Char × Rat)) (dflt : Rat) (c : Char) : Rat :=
  match d.find? (fun p => p.1 == c) with
  | some p => p.2
  | none => dflt

/-- `get_hydrophobicity(seq)` from `features.py`: per-symbol lookup in
the normalized table with default `0`, then `sum / len`; on the empty
sequence the division is an unchecked `ZeroDivisionError`. -/
def get_hydrophobicity (seq : List Char) : Except Err Rat :=
  let seq_hydrophobicities := seq.map (fun N => dictGet hydrophobicity_dict 0 N)
  if seq_hydrophobicities.length = 0 then .error .zeroDivision
  else .ok (seq_hydrophobicities.sum / (seq_hydrophobicities.length : Rat))

/-- The binary polarity table literal of `get_polarity` in
`features.py`. -/
def polarity_dict : List (Char × Rat) :=
  [('I', 0), ('V', 0), ('L', 0), ('F', 0), ('C', 0), ('M', 0), ('A', 0),
   ('W', 0), ('G', 0), ('T', 1), ('S', 1), ('Y', 1), ('P', 0), ('H', 1),
   ('N', 1), ('D', 1), ('Q', 1), ('E', 1), ('K', 1), ('R', 1)]

/-- `get_polarity(seq)` from `features.py`: per-symbol lookup with
default `0.5`, then `sum / len`; on the empty sequence the division is
an unchecked `ZeroDivisionError`. -/
def get_polarity (seq : List Char) : Except Err Rat :=
  let seq_polarities := seq.map (fun N => dictGet polarity_dict 0.5 N)
  if seq_polarities.length = 0 then .error .zeroDivision
  else .ok (seq_polarities.sum / (seq_polarities.length : Rat))

/-- `get_content_scores(seq, content_func, window_size)` from
`features.py`, verbatim: at each position the window is extracted (and
its extraction may fail), but the score appended is
`content_func(seq)` — the whole sequence, not the window. -/
def get_content_scores (seq : List Char) (content_func : List Char → Except Err Rat)
    (window_size : Int) : Except Err (List Rat) :=
  mapE (fun (i : Nat) =>
    match get_window seq (i : Int) window_size with
    | .error e => .error e
    | .ok _window => content_func seq)
    (List.range seq.length)

/-- The Content Scorer as the design documents word it: the score at
each position is `content_func` applied to the extracted window at
that position.  This definition follows the documents, not the source,
and exists only to be compared against `get_content_scores`. -/
def get_content_scores_windowed (seq : List Char) (content_func : List Char → Except Err Rat)
    (window_size : Int) : Except Err (List Rat) :=
  mapE (fun (i : Nat) =>
    match get_window seq (i : Int) window_size with
    | .error e => .error e
    | .ok window => content_func window)
    (List.range seq.length)

/-- `get_features(seq, features, window_size)` from `features.py`: the
catalog is a finite map from feature label to feature function
(modelled as an association list with distinct keys, in insertion
order, as a Python `dict` iterates); each function is applied once to
`(seq, window_size)`, and the feature-major lists are transposed into
one record per position by indexing, where an out-of-range index is an
unchecked `IndexError`. -/
def get_features (seq : List Char)
    (features : List (String × (List Char → Int → Except Err (List Rat))))
    (window_size : Int) : Except Err (List (List (String × Rat))) :=
  match mapE (fun lf =>
      match lf.2 seq window_size with
      | .error e => .error e
      | .ok v => .ok (lf.1, v)) features with
  | .error e => .error e
  | .ok label2idx =>
    mapE (fun i =>
      mapE (fun lv =>
        match lv.2[i]? with
        | some s => .ok (lv.1, s)
        | none => .error .indexError) label2idx)
      (List.range seq.length)

/-- The `hydrophobicity_content` entry of the feature dictionary at the
bottom of `features.py`. -/
def hydrophobicity_content (seq : List Char) (window_size : Int) : Except Err (List Rat) :=
  get_content_scores seq get_hydrophobicity window_size

/-- The `polarity_content` entry of the feature dictionary at the
bottom of `features.py`. -/
def polarity_content (seq : List Char) (window_size : Int) : Except Err (List Rat) :=
  get_content_scores seq get_polarity window_size

/-- The `aromatic_content` entry of the feature dictionary at the
bottom of `features.py`. -/
def aromatic_content (seq : List Char) (window_size : Int) : Except Err (List Rat) :=
  get_X_fractions seq ("FYWH".toList) window_size

/-- The feature dictionary at the bottom of `features.py`. -/
def featureCatalog : List (String × (List Char → Int → Except Err (List Rat))) :=
  [("hydrophobicity_content", hydrophobicity_content),
   ("polarity_content", polarity_content),
   ("aromatic_content", aromatic_content)]

/-- Per-symbol hydrophobicity as the design documents word it: the raw
table value normalized via `(raw + 4.5) / 9`, and `0` for a symbol
absent from the table. -/
def hydrophobicity_table_score (c : Char) : Rat :=
  match hydrophobicity_raw.find? (fun p => p.1 == c) with
  | some p => (p.2 + 4.5) / 9
  | none => 0

/-- Per-symbol polarity as the design documents word it: the binary
table value, and `0.5` for a symbol absent from the table. -/
def polarity_table_score (c : Char) : Rat :=
  match polarity_dict.find? (fun p => p.1 == c) with
  | some p => p.2
  | none => 0.5

theorem mapE_ok_of_forall {α β : Type} (f : α → Except Err β) (g : α → β) :
    ∀ l : List α, (∀ a ∈ l, f a = .ok (g a)) → mapE f l = .ok (l.map g)
  | [], _ => rfl
  | a :: as, h => by
    have ha : f a = .ok (g a) := h a (by simp)
    have has : mapE f as = .ok (as.map g) :=
      mapE_ok_of_forall f g as (fun x hx => h x (by simp [hx]))
    simp [mapE, ha, has]

theorem mapE_error_head {α β : Type} (f : α → Except Err β) (a : α) (l : List α) (e : Err)
    (h : f a = .error e) : mapE f (a :: l) = .error e := by
  simp [mapE, h]

theorem mapE_ok_forall2 {α β : Type} (f : α → Except Err β) :
    ∀ (l : List α) (bs : List β), mapE f l = .ok bs →
      List.Forall₂ (fun a b => f a = .ok b) l bs := by
  intro l
  induction l with
  | nil => intro bs h; cases h; exact List.Forall₂.nil
  | cons a as ih =>
    intro bs h
    unfold mapE at h
    cases hfa : f a with
    | error e => rw [hfa] at h; cases h
    | ok b =>
      rw [hfa] at h
      cases hrest : mapE f as with
      | error e => rw [hrest] at h; cases h
      | ok bs' =>
        rw [hrest] at h
        cases h
        exact List.Forall₂.cons hfa (ih bs' hrest)

theorem mapE_ok_length {α β : Type} (f : α → Except Err β) (l : List α) (bs : List β)
    (h : mapE f l = .ok bs) : bs.length = l.length :=
  ((mapE_ok_forall2 f l bs h).length_eq).symm

theorem mapE_exists_ok {α β : Type} (f : α → Except Err β) (P : β → Prop) :
    ∀ l : List α, (∀ a ∈ l, ∃ b, f a = .ok b ∧ P b) →
      ∃ bs, mapE f l = .ok bs ∧ bs.length = l.length ∧ ∀ b ∈ bs, P b
  | [], _ => ⟨[], rfl, rfl, by simp⟩
  | a :: as, h => by
    obtain ⟨b, hb, hPb⟩ := h a (by simp)
    obtain ⟨bs, hbs, hlen, hP⟩ :=
      mapE_exists_ok f P as (fun x hx => h x (by simp [hx]))
    refine ⟨b :: bs, ?_, by simp [hlen], ?_⟩
    · simp [mapE, hb, hbs]
    · intro x hx
      rcases List.mem_cons.mp hx with h1 | h2
      · rw [h1]; exact hPb
      · exact hP x h2

theorem forall2_map_eq {α β γ : Type} (R : α → β → Prop) (g : α → γ) (h : β → γ) :
    ∀ (l : List α) (m : List β), List.Forall₂ R l m → (∀ a b, R a b → g a = h b) →
      l.map g = m.map h := by
  intro l m hf
  induction hf with
  | nil => intro _; rfl
  | cons hab _ ih =>
    intro hgh
    simp [hgh _ _ hab, ih hgh]

theorem forall2_mem_right {α β : Type} (R : α → β → Prop) :
    ∀ (l : List α) (m : List β), List.Forall₂ R l m → ∀ b ∈ m, ∃ a ∈ l, R a b := by
  intro l m hf
  induction hf with
  | nil => intro b hb; cases hb
  | cons hab _ ih =>
    intro b hb
    rcases List.mem_cons.mp hb with h1 | h2
    · exact ⟨_, by simp, h1 ▸ hab⟩
    · obtain ⟨a, ha, hR⟩ := ih b h2
      exact ⟨a, by simp [ha], hR⟩

theorem take_drop_congr {α : Type} (s : List α) (u u' v v' : Nat) (hu : u = u') (hv : v = v') :
    (s.drop u).take v = (s.drop u').take v' := by
  rw [hu, hv]

theorem get_window_ok (seq : List Char) (pos delta : Int)
    (h0 : 0 ≤ pos) (h1 : pos < (seq.length : Int)) (hdel : 0 ≤ delta) :
    get_window seq pos (2 * delta + 1) =
      .ok ((seq.drop (max (pos - delta) 0).toNat).take
        (min (pos + delta + 1) (seq.length : Int) - max (pos - delta) 0).toNat) := by
  have hfd : Int.fdiv (2 * delta + 1 - 1) 2 = delta := by
    have h2 : (2 : Int) * delta + 1 - 1 = 2 * delta := by ring
    rw [h2, Int.mul_fdiv_cancel_left _ (by norm_num)]
  simp only [get_window, pySlice, hfd]
  rw [if_neg (by omega), if_neg (by omega)]
  split_ifs <;>
    exact congrArg Except.ok (take_drop_congr seq _ _ _ _ (by omega) (by omega))

theorem get_window_ok_length (seq : List Char) (pos delta : Int)
    (h0 : 0 ≤ pos) (h1 : pos < (seq.length : Int)) (hdel : 0 ≤ delta) :
    ∃ win, get_window seq pos (2 * delta + 1) = .ok win ∧
      (win.length : Int) = min (pos + delta + 1) (seq.length : Int) - max (pos - delta) 0 ∧
      0 < win.length ∧ (win.length : Int) ≤ 2 * delta + 1 := by
  refine ⟨_, get_window_ok seq pos delta h0 h1 hdel, ?_, ?_, ?_⟩ <;>
    simp [List.length_take, List.length_drop] <;> omega

theorem foldl_count (X : List Char) :
    ∀ (seq : List Char) (acc : Nat),
      seq.foldl (fun n sym => if sym ∈ X then n + 1 else n) acc =
        acc + seq.countP (fun sym => decide (sym ∈ X))
  | [], acc => by simp
  | s :: rest, acc => by
    by_cases hs : s ∈ X
    · simp only [List.foldl_cons, if_pos hs, List.countP_cons, foldl_count X rest]
      simp [hs]
      omega
    · simp only [List.foldl_cons, if_neg hs, List.countP_cons, foldl_count X rest]
      simp [hs]

theorem get_X_count_countP (seq X : List Char) :
    get_X_count seq X = seq.countP (fun sym => decide (sym ∈ X)) := by
  unfold get_X_count
  rw [foldl_count]
  omega

theorem get_X_count_le_length (seq X : List Char) : get_X_count seq X ≤ seq.length := by
  rw [get_X_count_countP]
  exact List.countP_le_length _

/-- C2: on the empty sequence, `get_hydrophobicity` and `get_polarity` crash
with an unchecked division by zero (`ZeroDivisionError`), not with the
`EmptyInput` error kind the design documents prescribe, and the content
scoring pipeline returns the empty list without any error at all. -/
theorem empty_input_unchecked_division :
    get_hydrophobicity [] = .error .zeroDivision ∧
    get_polarity [] = .error .zeroDivision ∧
    get_content_scores [] get_hydrophobicity 3 = .ok [] ∧
    Err.zeroDivision ≠ Err.emptyInput := by
  refine ⟨rfl, rfl, rfl, by decide⟩

/-- C3 counterexample: the negative odd window size `-1` is not rejected —
`get_window("A", 0, -1)` returns the empty window successfully instead of
failing with an `InvalidWindowSize` error, refuting the claim that every
`window_size ≤ 0` is rejected. -/
theorem get_window_negative_odd_accepted : get_window ("A".toList) 0 (-1) = .ok [] := by
  decide

/-- C3 (amended): `get_window` fails with `InvalidPosition` whenever `pos`
is out of bounds, and for an in-bounds `pos` it fails with
`InvalidWindowSize` exactly when `window_size` is even in Python's sense
(`window_size % 2 == 0`, which holds for all even values, non-positive ones
included); negative odd window sizes are accepted. -/
theorem get_window_error_kinds (seq : List Char) (pos w : Int) :
    ((pos < 0 ∨ (seq.length : Int) - 1 < pos) →
      get_window seq pos w = .error .invalidPosition) ∧
    (0 ≤ pos → pos ≤ (seq.length : Int) - 1 →
      (get_window seq pos w = .error .invalidWindowSize ↔ w % 2 = 0)) := by
  constructor
  · intro h
    simp only [get_window]
    rw [if_pos (by omega)]
  · intro h0 h1
    simp only [get_window]
    rw [if_neg (by omega)]
    by_cases hw : w % 2 = 0
    · rw [if_pos hw]
      simp [hw]
    · rw [if_neg hw]
      simp [hw]

/-- Witness for C3's amended theorem at concrete inputs. -/
theorem get_window_error_kinds_witness :
    get_window ("AB".toList) (-1) 3 = .error .invalidPosition ∧
    get_window ("AB".toList) 0 2 = .error .invalidWindowSize := by
  constructor
  · exact (get_window_error_kinds ("AB".toList) (-1) 3).1 (by decide)
  · exact ((get_window_error_kinds ("AB".toList) 0 2).2 (by decide) (by decide)).mpr (by decide)

/-- C4: `get_features` performs no feature-length check: a feature function
returning 3 scores for a 2-symbol sequence is silently truncated to 2
records with no `FeatureLengthMismatch` failure, and one returning too few
scores fails with an unchecked `IndexError`, not `FeatureLengthMismatch`. -/
theorem get_features_no_length_check :
    get_features ("AB".toList) [("f", fun _ _ => .ok [0, 0, 0])] 3 =
      .ok [[("f", 0)], [("f", 0)]] ∧
    get_features ("AB".toList) [("f", fun _ _ => .ok [0])] 3 = .error .indexError := by
  exact ⟨rfl, rfl⟩

/-- C5: for a valid position and positive odd window size `2 * delta + 1`,
`get_window` returns the sub-sequence spanning positions
`max (pos - delta) 0` through `min (pos + delta) (len - 1)` inclusive, of
length at most the window size, with equality whenever neither bound is
clipped. -/
theorem get_window_span (seq : List Char) (pos w delta : Int)
    (h0 : 0 ≤ pos) (h1 : pos < (seq.length : Int))
    (hd : w = 2 * delta + 1) (hdel : 0 ≤ delta) :
    ∃ win, get_window seq pos w = .ok win ∧
      win = (seq.drop (max (pos - delta) 0).toNat).take
        (min (pos + delta) ((seq.length : Int) - 1) - max (pos - delta) 0 + 1).toNat ∧
      (win.length : Int) ≤ w ∧
      (0 ≤ pos - delta → pos + delta < (seq.length : Int) → (win.length : Int) = w) := by
  subst hd
  refine ⟨_, get_window_ok seq pos delta h0 h1 hdel, ?_, ?_, ?_⟩
  · exact take_drop_congr seq _ _ _ _ rfl (by omega)
  · simp only [List.length_take, List.length_drop]
    omega
  · intro ha hb
    simp only [List.length_take, List.length_drop]
    omega

/-- Witness for C5 at the two concrete scenarios of the design documents. -/
theorem get_window_span_witness :
    get_window ("ABCDE".toList) 0 3 = .ok ("AB".toList) ∧
    get_window ("ABCDE".toList) 2 3 = .ok ("BCD".toList) := by
  obtain ⟨win1, hw1, he1, -, -⟩ :=
    get_window_span ("ABCDE".toList) 0 3 1 (by decide) (by decide) (by decide) (by decide)
  obtain ⟨win2, hw2, he2, -, -⟩ :=
    get_window_span ("ABCDE".toList) 2 3 1 (by decide) (by decide) (by decide) (by decide)
  constructor
  · rw [hw1, he1]
    decide
  · rw [hw2, he2]
    decide

/-- C9: `get_X_count` is invariant under reordering of the symbol set, and
for a set and its complement over the symbols of `seq` the two counts sum
to the sequence length. -/
theorem get_X_count_perm_partition (seq X Y Z : List Char)
    (hXY : X.Perm Y) (hpart : ∀ c ∈ seq, c ∈ X ↔ c ∉ Z) :
    get_X_count seq X = get_X_count seq Y ∧
    get_X_count seq X + get_X_count seq Z = seq.length := by
  rw [get_X_count_countP, get_X_count_countP, get_X_count_countP]
  constructor
  · exact List.countP_congr (fun a _ => by simp [hXY.mem_iff])
  · rw [List.length_eq_countP_add_countP (fun sym => decide (sym ∈ X)) seq]
    congr 1
    apply List.countP_congr
    intro a ha
    have h := hpart a ha
    simp only [decide_eq_true_eq]
    tauto

/-- Witness for C9: `X = "AB"` reordered to `"BA"` and complemented by the
empty set over `"AABBA"`, together with concrete scenario 3. -/
theorem get_X_count_perm_partition_witness :
    get_X_count ("AABBA".toList) ("A".toList) = 3 ∧
    (get_X_count ("AABBA".toList) ("AB".toList) = get_X_count ("AABBA".toList) ("BA".toList) ∧
      get_X_count ("AABBA".toList) ("AB".toList) + get_X_count ("AABBA".toList) [] =
        ("AABBA".toList).length) := by
  refine ⟨by decide, ?_⟩
  exact get_X_count_perm_partition ("AABBA".toList) ("AB".toList) ("BA".toList) []
    (by decide) (by decide)
/-- C7: on a non-empty sequence with a positive odd window size,
`get_X_fractions` succeeds with one fraction per position, each lying in
the closed interval `[0, 1]`. -/
theorem get_X_fractions_length_bounds (seq X : List Char) (w : Int)
    (_hne : seq ≠ []) (hw : 0 < w) (hodd : w % 2 = 1) :
    ∃ fr, get_X_fractions seq X w = .ok fr ∧ fr.length = seq.length ∧
      ∀ q ∈ fr, 0 ≤ q ∧ q ≤ 1 := by
  obtain ⟨delta, hd, hdel⟩ : ∃ d, w = 2 * d + 1 ∧ 0 ≤ d := ⟨w / 2, by omega⟩
  subst hd
  have key := mapE_exists_ok
    (fun i : Nat => match get_window seq (i : Int) (2 * delta + 1) with
      | .error e => .error e
      | .ok window =>
        if window.length = 0 then .error Err.zeroDivision
        else .ok ((get_X_count window X : Rat) / (window.length : Rat)))
    (fun q : Rat => 0 ≤ q ∧ q ≤ 1)
    (List.range seq.length)
    (by
      intro i hi
      have hi' : (i : Int) < (seq.length : Int) := by exact_mod_cast List.mem_range.mp hi
      obtain ⟨win, hwin, -, hwpos, -⟩ :=
        get_window_ok_length seq (i : Int) delta (Int.natCast_nonneg i) hi' hdel
      refine ⟨(get_X_count win X : Rat) / (win.length : Rat), ?_, ?_, ?_⟩
      · simp only [hwin]
        rw [if_neg (by omega)]
      · positivity
      · rw [div_le_one (by exact_mod_cast hwpos)]
        exact_mod_cast get_X_count_le_length win X)
  obtain ⟨fr, hfr, hlen, hP⟩ := key
  refine ⟨fr, ?_, by rw [hlen, List.length_range], hP⟩
  unfold get_X_fractions
  exact hfr

/-- Witness for C7 at a concrete sequence and symbol set. -/
theorem get_X_fractions_length_bounds_witness :
    ∃ fr, get_X_fractions ("AB".toList) ("A".toList) 3 = .ok fr ∧
      fr.length = ("AB".toList).length ∧ ∀ q ∈ fr, 0 ≤ q ∧ q ≤ 1 :=
  get_X_fractions_length_bounds ("AB".toList) ("A".toList) 3 (by decide) (by decide) (by decide)

/-- C10: on a non-empty sequence with a positive odd window size, every
score produced by `get_content_scores` is `content_func` applied to the
whole sequence, so the output is the score of the whole sequence replicated
once per position (or the error `content_func` raises on the whole
sequence). -/
theorem get_content_scores_whole_seq (seq : List Char)
    (content_func : List Char → Except Err Rat) (w : Int)
    (hne : seq ≠ []) (hw : 0 < w) (hodd : w % 2 = 1) :
    get_content_scores seq content_func w =
      Except.map (fun s => List.replicate seq.length s) (content_func seq) := by
  obtain ⟨delta, hd, hdel⟩ : ∃ d, w = 2 * d + 1 ∧ 0 ≤ d := ⟨w / 2, by omega⟩
  subst hd
  have hlen : 0 < seq.length := List.length_pos.mpr hne
  cases hf : content_func seq with
  | ok s =>
    have hmap := mapE_ok_of_forall
      (fun i : Nat => match get_window seq (i : Int) (2 * delta + 1) with
        | .error e => .error e
        | .ok _window => content_func seq)
      (fun _ : Nat => s)
      (List.range seq.length)
      (by
        intro i hi
        have hi' : (i : Int) < (seq.length : Int) := by exact_mod_cast List.mem_range.mp hi
        obtain ⟨win, hwin, -, -, -⟩ :=
          get_window_ok_length seq (i : Int) delta (Int.natCast_nonneg i) hi' hdel
        simp only [hwin, hf])
    unfold get_content_scores
    rw [hmap]
    simp [Except.map, List.map_const', List.length_range]
  | error e =>
    obtain ⟨m, hm⟩ : ∃ m, seq.length = m + 1 := ⟨seq.length - 1, by omega⟩
    obtain ⟨win, hwin, -, -, -⟩ :=
      get_window_ok_length seq 0 delta le_rfl (by exact_mod_cast hlen) hdel
    unfold get_content_scores
    rw [hf]
    simp only [Except.map]
    rw [hm, List.range_succ_eq_map]
    apply mapE_error_head
    simp only [Nat.cast_zero, hwin]

/-- Witness for C10: with window size 3 on "IR", both positions receive the
whole-sequence polarity score 1/2. -/
theorem get_content_scores_whole_seq_witness :
    get_content_scores ("IR".toList) get_polarity 3 = .ok [1/2, 1/2] := by
  have hseq : ("IR".toList) = ['I', 'R'] := rfl
  have hp : get_polarity ("IR".toList) = .ok (1/2) := by
    have hI : dictGet polarity_dict 0.5 'I' = 0 := by decide
    have hR : dictGet polarity_dict 0.5 'R' = 1 := by decide
    rw [hseq]
    simp [get_polarity, hI, hR]
  rw [get_content_scores_whole_seq ("IR".toList) get_polarity 3 (by decide) (by decide)
    (by decide), hp]
  rw [hseq]
  simp [Except.map, List.replicate]

/-- C1: the Content Scorer calls `content_func` on the whole sequence, not
on the extracted window: on "IR" with window size 1 the code returns the
whole-sequence hydrophobicity 1/2 at both positions, whereas the per-window
scorer required by the design documents returns [1, 0]. -/
theorem get_content_scores_ignores_window :
    get_content_scores ("IR".toList) get_hydrophobicity 1 = .ok [1/2, 1/2] ∧
    get_content_scores_windowed ("IR".toList) get_hydrophobicity 1 = .ok [1, 0] := by
  have hI : dictGet hydrophobicity_dict 0 'I' = 1 := by
    rw [show dictGet hydrophobicity_dict 0 'I' = (4.5 + 4.5) / 9 from rfl]
    norm_num
  have hR : dictGet hydrophobicity_dict 0 'R' = 0 := by
    rw [show dictGet hydrophobicity_dict 0 'R' = (-4.5 + 4.5) / 9 from rfl]
    norm_num
  have hseq : ("IR".toList) = ['I', 'R'] := rfl
  have hyd_IR : get_hydrophobicity ("IR".toList) = .ok (1/2) := by
    rw [hseq]
    simp [get_hydrophobicity, hI, hR]
  have hyd_I : get_hydrophobicity ['I'] = .ok 1 := by
    simp [get_hydrophobicity, hI]
  have hyd_R : get_hydrophobicity ['R'] = .ok 0 := by
    simp [get_hydrophobicity, hR]
  constructor
  · rw [get_content_scores_whole_seq ("IR".toList) get_hydrophobicity 1 (by decide) (by decide)
      (by decide), hyd_IR]
    rw [hseq]
    simp [Except.map, List.replicate]
  · have g0 : get_window ['I', 'R'] 0 1 = .ok ['I'] := by decide
    have g1 : get_window ['I', 'R'] 1 1 = .ok ['R'] := by decide
    have hrange : List.range (("IR".toList).length) = [0, 1] := rfl
    unfold get_content_scores_windowed
    rw [hrange]
    simp [mapE, g0, g1, hyd_I, hyd_R]

/-- C6: on a non-empty sequence, when every feature function in the catalog
honors the Feature Function contract (an ok list with one score per
position), `get_features` returns one record per position, and the keys of
every record are exactly the catalog's feature names in catalog order. -/
theorem get_features_shape (seq : List Char)
    (feats : List (String × (List Char → Int → Except Err (List Rat)))) (w : Int)
    (_hne : seq ≠ [])
    (hF : ∀ lf ∈ feats, ∃ vs, lf.2 seq w = .ok vs ∧ vs.length = seq.length) :
    ∃ records, get_features seq feats w = .ok records ∧ records.length = seq.length ∧
      ∀ r ∈ records, r.map Prod.fst = feats.map Prod.fst := by
  have key := mapE_exists_ok
    (fun lf : String × (List Char → Int → Except Err (List Rat)) =>
      match lf.2 seq w with
      | .error e => .error e
      | .ok v => .ok (lf.1, v))
    (fun lv : String × List Rat => lv.2.length = seq.length)
    feats
    (by
      intro lf hlf
      obtain ⟨vs, hvs, hlen⟩ := hF lf hlf
      exact ⟨(lf.1, vs), by simp only [hvs], hlen⟩)
  obtain ⟨label2idx, hl2i, -, hmem⟩ := key
  have hfst : feats.map Prod.fst = label2idx.map Prod.fst :=
    forall2_map_eq _ Prod.fst Prod.fst feats label2idx (mapE_ok_forall2 _ feats label2idx hl2i)
      (fun lf lv hok => by
        cases hv : lf.2 seq w with
        | error e =>
          simp only [hv] at hok
          cases hok
        | ok v =>
          simp only [hv] at hok
          injection hok with h
          rw [← h])
  have h2 : ∀ i ∈ List.range seq.length,
      mapE (fun lv : String × List Rat =>
        match lv.2[i]? with
        | some s => .ok (lv.1, s)
        | none => .error Err.indexError) label2idx =
      .ok (label2idx.map (fun lv => (lv.1, lv.2.getD i 0))) := by
    intro i hi
    apply mapE_ok_of_forall
    intro lv hlv
    have hi' : i < lv.2.length := by
      rw [hmem lv hlv]
      exact List.mem_range.mp hi
    rw [List.getElem?_eq_getElem hi', List.getD_eq_getElem lv.2 0 hi']
  have h3 : get_features seq feats w = .ok ((List.range seq.length).map
      (fun i => label2idx.map (fun lv => (lv.1, lv.2.getD i 0)))) := by
    unfold get_features
    rw [hl2i]
    exact mapE_ok_of_forall _ _ _ h2
  refine ⟨_, h3, by simp, ?_⟩
  intro r hr
  simp only [List.mem_map] at hr
  obtain ⟨i, hi, hri⟩ := hr
  rw [← hri, List.map_map, hfst]
  rfl

/-- Witness for C6 at concrete scenario 6: a one-feature catalog on "AB"
yields 2 records, each keyed "aromatic_content". -/
theorem get_features_shape_witness :
    ∃ records, get_features ("AB".toList) [("aromatic_content", aromatic_content)] 3 =
        .ok records ∧
      records.length = ("AB".toList).length ∧
      ∀ r ∈ records, r.map Prod.fst =
        ([("aromatic_content", aromatic_content)].map Prod.fst) := by
  apply get_features_shape ("AB".toList) [("aromatic_content", aromatic_content)] 3 (by decide)
  intro lf hlf
  have hlf' : lf = ("aromatic_content", aromatic_content) := by
    simpa using hlf
  subst hlf'
  refine ⟨[0, 0], ?_, by decide⟩
  have g0 : get_window ['A', 'B'] 0 3 = .ok ['A', 'B'] := by decide
  have g1 : get_window ['A', 'B'] 1 3 = .ok ['A', 'B'] := by decide
  have hcount : get_X_count ['A', 'B'] ['F', 'Y', 'W', 'H'] = 0 := by decide
  have hrange : List.range (("AB".toList).length) = [0, 1] := rfl
  show aromatic_content ("AB".toList) 3 = .ok [0, 0]
  unfold aromatic_content get_X_fractions
  rw [hrange]
  simp [mapE, g0, g1, hcount]

/-- C8: on every non-empty sequence, `get_hydrophobicity` is the arithmetic
mean of per-symbol scores obtained by normalizing the raw table value via
`(raw + 4.5) / 9` with absent symbols scoring 0, and `get_polarity` is the
arithmetic mean of the binary per-symbol polarity values with absent
symbols scoring 0.5. -/
theorem content_scorers_table_means (seq : List Char) (hne : seq ≠ []) :
    get_hydrophobicity seq =
      .ok ((seq.map hydrophobicity_table_score).sum / (seq.length : Rat)) ∧
    get_polarity seq =
      .ok ((seq.map polarity_table_score).sum / (seq.length : Rat)) := by
  have hmaps : seq.map (fun N => dictGet hydrophobicity_dict 0 N) =
      seq.map hydrophobicity_table_score := by
    apply List.map_congr_left
    intro c _
    unfold dictGet hydrophobicity_table_score hydrophobicity_dict
    rw [List.find?_map]
    rw [show ((fun p : Char × Rat => p.1 == c) ∘ (fun p : Char × Rat => (p.1, (p.2 + 4.5) / 9)))
      = (fun p : Char × Rat => p.1 == c) from rfl]
    cases hydrophobicity_raw.find? (fun p : Char × Rat => p.1 == c) with
    | none => rfl
    | some p => rfl
  have hpol : (fun N => dictGet polarity_dict 0.5 N) = polarity_table_score := rfl
  constructor
  · unfold get_hydrophobicity
    rw [if_neg (by simpa using hne)]
    rw [hmaps, List.length_map]
  · unfold get_polarity
    rw [if_neg (by simpa using hne)]
    rw [hpol, List.length_map]

/-- Witness for C8 at the two concrete scenarios: an all-polar sequence
scores polarity 1 and all-arginine scores hydrophobicity 0. -/
theorem content_scorers_table_means_witness :
    get_polarity ("TTTT".toList) = .ok 1 ∧ get_hydrophobicity ("RRRR".toList) = .ok 0 := by
  constructor
  · rw [(content_scorers_table_means ("TTTT".toList) (by decide)).2]
    have hT : polarity_table_score 'T' = 1 := by decide
    rw [show ("TTTT".toList) = ['T', 'T', 'T', 'T'] from rfl]
    simp [hT]
    norm_num
  · rw [(content_scorers_table_means ("RRRR".toList) (by decide)).1]
    have hR : hydrophobicity_table_score 'R' = 0 := by
      rw [show hydrophobicity_table_score 'R' = (-4.5 + 4.5) / 9 from rfl]
      norm_num
    rw [show ("RRRR".toList) = ['R', 'R', 'R', 'R'] from rfl]
    simp [hR]
